import Mathlib

/-!
Shallow embedding of the `resourcestore` package
(`internal/resourcestore/resourcestore.go`).

The store is a registry mapping names to `Resource` entries.  We model the
Go map by an association list, watcher channels by identifiers carrying
their buffer capacity, and the observable side effects (`SetCreated`,
channel sends, `Cleanup` invocations) by an explicit event trace.  Each Go
method becomes a pure function from a store to a store together with the
list of events it emits; the background reaper's per-cycle body becomes
`cleanupPass`.  An operation type `Op` and a `runOps` interpreter give the
trace semantics used for the temporal claims.
-/

/-- A watcher channel (`make(chan struct{}, 1)` in the source): an identity
plus the buffer capacity it was allocated with. -/
structure WatcherChan where
  cid : Nat
  cap : Nat
deriving Repr, DecidableEq

/-- The `IdentifiableCreatable` interface: the only datum an implementation
must expose is the stable identifier returned by `ID()`; the `SetCreated()`
call is recorded as an event. -/
structure IdentifiableCreatable where
  idStr : String
deriving Repr, DecidableEq

/-- Modelled from the spec: the `ResourceCleaner` type is not part of the
provided source (only `resourcestore.go` is); per the spec it is "a
first-in-last-out stack of idempotent cleanup callbacks" whose internals the
store never inspects — the store only holds a reference and invokes
`Cleanup()` once.  We model it as an opaque handle with an identity, and
record `Cleanup()` invocations as events. -/
structure ResourceCleaner where
  cleanerId : Nat
deriving Repr, DecidableEq

/-- The `Resource` struct of the source: the resource handle (nil for a
placeholder), the cleaner pointer (nil for a placeholder), the watcher
list, the stale flag and the name. -/
structure Resource where
  resource : Option IdentifiableCreatable
  cleaner : Option ResourceCleaner
  watchers : List WatcherChan
  stale : Bool
  name : String
deriving Repr, DecidableEq

/-- The method `wasPut` from the source: a resource is fully defined iff its
`resource` field is set.  (The Go receiver-nil check `r != nil` cannot
arise in the embedding, where entries are always values.) -/
def Resource.wasPut (r : Resource) : Bool :=
  r.resource.isSome

/-- The zero value `&Resource{}` allocated by `Put` for a missing entry. -/
def emptyResource : Resource :=
  { resource := none, cleaner := none, watchers := [], stale := false, name := "" }

/-- Observable events: `SetCreated()` on a resource handle, a send on a
watcher channel, a `Cleanup()` call on a cleaner, and the nil-pointer
dereference that `r.cleaner.Cleanup()` would be if a reaped entry carried
no cleaner. -/
inductive Event where
  | setCreated (res : IdentifiableCreatable)
  | notify (cid : Nat)
  | cleanup (c : ResourceCleaner)
  | nilCleanerDeref
deriving Repr, DecidableEq

/-- The `ResourceStore` struct: the registry, the closed flag, whether
`closeChan` has been closed, the reaper period, and a counter supplying
fresh channel identities (Go channel allocation). -/
structure ResourceStore where
  resources : List (String × Resource)
  timeout : Nat
  closed : Bool
  closeChanClosed : Bool
  nextChan : Nat
deriving Repr, DecidableEq

/-- The constant `sleepTimeBeforeCleanup = 1 * time.Minute`, in nanoseconds. -/
def sleepTimeBeforeCleanup : Nat := 60000000000

/-- The constructor `NewWithTimeout`: empty registry, open close channel, given period. -/
def newWithTimeout (timeout : Nat) : ResourceStore :=
  { resources := [], timeout := timeout, closed := false,
    closeChanClosed := false, nextChan := 0 }

/-- The constructor `New`, with the default period. -/
def newDefault : ResourceStore :=
  newWithTimeout sleepTimeBeforeCleanup

/-- Go map read `rc.resources[name]`. -/
def lookupRes : List (String × Resource) → String → Option Resource
  | [], _ => none
  | (k, v) :: rest, name => if k = name then some v else lookupRes rest name

/-- Go map write `rc.resources[name] = r` (overwrites an existing key,
appends a new one). -/
def insertRes : List (String × Resource) → String → Resource → List (String × Resource)
  | [], name, r => [(name, r)]
  | (k, v) :: rest, name, r =>
    if k = name then (k, r) :: rest else (k, v) :: insertRes rest name r

/-- Go map `delete(rc.resources, name)`. -/
def eraseRes : List (String × Resource) → String → List (String × Resource)
  | [], _ => []
  | (k, v) :: rest, name => if k = name then rest else (k, v) :: eraseRes rest name

/-- The method `Get`: look the name up; absent or placeholder returns the empty
string and leaves everything untouched; otherwise the entry is deleted,
`SetCreated()` fires, and `ID()` is returned. -/
def ResourceStore.Get (rc : ResourceStore) (name : String) :
    String × ResourceStore × List Event :=
  match lookupRes rc.resources name with
  | none => ("", rc, [])
  | some r =>
    match r.resource with
    | none => ("", rc, [])
    | some res =>
      (res.idStr, { rc with resources := eraseRes rc.resources name },
        [Event.setCreated res])

/-- The method `Put`: reject a duplicate on a fully populated entry; otherwise
populate the (possibly fresh) entry in place and send one notification to
every watcher already attached to it.  The Go code's interim
`rc.resources[name] = &Resource{}` for a missing key is immediately
followed by the population under the same lock, so the two map writes fuse
into one. -/
def ResourceStore.Put (rc : ResourceStore) (name : String)
    (resource : IdentifiableCreatable) (cleaner : ResourceCleaner) :
    Except String Unit × ResourceStore × List Event :=
  match lookupRes rc.resources name with
  | some r =>
    if r.wasPut then
      (Except.error ("failed to add entry " ++ name ++
          " to ResourceStore; entry already exists"), rc, [])
    else
      let populated : Resource :=
        { r with resource := some resource, cleaner := some cleaner, name := name }
      (Except.ok (),
        { rc with resources := insertRes rc.resources name populated },
        r.watchers.map (fun w => Event.notify w.cid))
  | none =>
    let populated : Resource :=
      { emptyResource with resource := some resource, cleaner := some cleaner, name := name }
    (Except.ok (),
      { rc with resources := insertRes rc.resources name populated },
      [])

/-- The allocation `make(chan struct{}, 1)`: a fresh channel with capacity one. -/
def mkWatcherChan (cid : Nat) : WatcherChan :=
  { cid := cid, cap := 1 }

/-- The method `WatcherForResource`: allocate a fresh capacity-one channel; append it
to an existing entry's watcher list, or insert a placeholder carrying just
this watcher. -/
def ResourceStore.WatcherForResource (rc : ResourceStore) (name : String) :
    WatcherChan × ResourceStore :=
  let watcher := mkWatcherChan rc.nextChan
  match lookupRes rc.resources name with
  | none =>
    let fresh : Resource := { emptyResource with watchers := [watcher], name := name }
    (watcher,
      { rc with resources := insertRes rc.resources name fresh
                nextChan := rc.nextChan + 1 })
  | some r =>
    let extended : Resource := { r with watchers := r.watchers ++ [watcher] }
    (watcher,
      { rc with resources := insertRes rc.resources name extended
                nextChan := rc.nextChan + 1 })

/-- The method `Close`: a no-op once closed; otherwise close `closeChan` and set the
flag. -/
def ResourceStore.Close (rc : ResourceStore) : ResourceStore :=
  if rc.closed then rc
  else { rc with closeChanClosed := true, closed := true }

/-- One traversal of the registry by `cleanupStaleResources`: skip entries
that were not put; delete already-stale entries into the reap list; mark
everything visited (kept or reaped) stale. -/
def cleanupPass : List (String × Resource) → List (String × Resource) × List Resource
  | [] => ([], [])
  | (name, r) :: rest =>
    let next := cleanupPass rest
    if r.wasPut = false then
      ((name, r) :: next.1, next.2)
    else if r.stale then
      (next.1, { r with stale := true } :: next.2)
    else
      ((name, { r with stale := true }) :: next.1, next.2)

/-- The call `r.cleaner.Cleanup()` on a reaped entry: an ordinary cleanup event
when the cleaner is set, a nil dereference otherwise. -/
def cleanupCall (r : Resource) : Event :=
  match r.cleaner with
  | some c => Event.cleanup c
  | none => Event.nilCleanerDeref

/-- One iteration of the reaper loop after the timer fires: nothing
happens once `closeChan` is closed (the goroutine has returned); otherwise
the registry is traversed and the reaped entries' cleaners run outside the
lock. -/
def ResourceStore.cleanupStaleResourcesStep (rc : ResourceStore) :
    ResourceStore × List Event :=
  if rc.closeChanClosed then (rc, [])
  else
    let pass := cleanupPass rc.resources
    ({ rc with resources := pass.1 }, pass.2.map cleanupCall)

/-- The store's externally driven operations, for trace reasoning. -/
inductive Op where
  | put (name : String) (res : IdentifiableCreatable) (cleaner : ResourceCleaner)
  | get (name : String)
  | watch (name : String)
  | close
  | reap
deriving Repr, DecidableEq

/-- One operation applied to a store, with the events it emits. -/
def stepOp (rc : ResourceStore) : Op → ResourceStore × List Event
  | Op.put name res cleaner =>
    let out := rc.Put name res cleaner
    (out.2.1, out.2.2)
  | Op.get name =>
    let out := rc.Get name
    (out.2.1, out.2.2)
  | Op.watch name => ((rc.WatcherForResource name).2, [])
  | Op.close => (rc.Close, [])
  | Op.reap => rc.cleanupStaleResourcesStep

/-- A sequence of operations, with the concatenated event trace. -/
def runOps (rc : ResourceStore) : List Op → ResourceStore × List Event
  | [] => (rc, [])
  | op :: ops =>
    let first := stepOp rc op
    let rest := runOps first.1 ops
    (rest.1, first.2 ++ rest.2)

/-- Number of sends on channel `c` recorded in a trace. -/
def countNotify (c : Nat) : List Event → Nat
  | [] => 0
  | Event.notify c' :: rest => (if c' = c then 1 else 0) + countNotify c rest
  | _ :: rest => countNotify c rest

/-- Number of `Cleanup()` invocations of cleaner `c` recorded in a trace. -/
def countCleanup (c : ResourceCleaner) : List Event → Nat
  | [] => 0
  | Event.cleanup c' :: rest => (if c' = c then 1 else 0) + countCleanup c rest
  | _ :: rest => countCleanup c rest

/-- Occurrences of channel identity `c` in one watcher list. -/
def countChanIn (c : Nat) : List WatcherChan → Nat
  | [] => 0
  | w :: ws => (if w.cid = c then 1 else 0) + countChanIn c ws

/-- Occurrences of channel identity `c` across every entry's watcher list. -/
def allCount : List (String × Resource) → Nat → Nat
  | [], _ => 0
  | (_, r) :: rest, c => countChanIn c r.watchers + allCount rest c

/-- Occurrences of channel identity `c` across the watcher lists of the
placeholder (not-yet-put) entries only — the channels a future `Put` could
still signal. -/
def placeholderCount : List (String × Resource) → Nat → Nat
  | [], _ => 0
  | (_, r) :: rest, c =>
    (if r.wasPut then 0 else countChanIn c r.watchers) + placeholderCount rest c

/-- Invariant tying a store to the trace that produced it: every channel
has been sent to at most once counting its remaining signalling
opportunities, channel identities at or above the allocation counter are
completely unused, and every watcher channel in the registry was allocated
with capacity one. -/
structure ChanInv (rc : ResourceStore) (tr : List Event) : Prop where
  send_bound : ∀ c, countNotify c tr + placeholderCount rc.resources c ≤ 1
  fresh_unused : ∀ c, rc.nextChan ≤ c → countNotify c tr = 0 ∧ allCount rc.resources c = 0
  cap_one : ∀ p ∈ rc.resources, ∀ w ∈ p.2.watchers, w.cap = 1

/-- A channel that was allocated in the past and no longer sits in any
placeholder's watcher list: no future operation can send on it. -/
def unreachableChan (rc : ResourceStore) (c : Nat) : Prop :=
  c < rc.nextChan ∧ placeholderCount rc.resources c = 0

/-- Whether an operation is a `Put` carrying the given cleaner. -/
def opPutsCleaner (c : ResourceCleaner) : Op → Bool
  | Op.put _ _ c' => c' = c
  | _ => false

/-- No entry of the registry carries the given cleaner. -/
def cleanerAbsent (m : List (String × Resource)) (c : ResourceCleaner) : Prop :=
  ∀ p ∈ m, p.2.cleaner ≠ some c

/-- The watcher list of the entry under `name`, empty when absent. -/
def watchersOf (rc : ResourceStore) (name : String) : List WatcherChan :=
  match lookupRes rc.resources name with
  | some r => r.watchers
  | none => []

/-- Concrete sample values used to instantiate the general theorems. -/
def resA : IdentifiableCreatable := { idStr := "id-a" }

def resB : IdentifiableCreatable := { idStr := "id-b" }

def clnA : ResourceCleaner := { cleanerId := 0 }

def clnB : ResourceCleaner := { cleanerId := 1 }

/-- A fully populated, fresh (non-stale) entry. -/
def entryFullA : Resource :=
  { resource := some resA, cleaner := some clnA, watchers := [], stale := false, name := "a" }

/-- A fully populated entry already marked stale by a previous reaper visit. -/
def entryStaleA : Resource :=
  { resource := some resA, cleaner := some clnA, watchers := [], stale := true, name := "a" }

/-- A placeholder entry holding a single watcher. -/
def entryPlaceholderB : Resource :=
  { resource := none, cleaner := none, watchers := [mkWatcherChan 0], stale := false,
    name := "b" }

/-- A store holding one populated entry. -/
def storeFullA : ResourceStore :=
  { resources := [("a", entryFullA)], timeout := 5, closed := false,
    closeChanClosed := false, nextChan := 0 }

/-- A store holding one placeholder entry with one watcher. -/
def storePlaceholderB : ResourceStore :=
  { resources := [("b", entryPlaceholderB)], timeout := 5, closed := false,
    closeChanClosed := false, nextChan := 1 }

theorem lookupRes_mem {m : List (String × Resource)} {name : String} {r : Resource}
    (h : lookupRes m name = some r) : (name, r) ∈ m := by
  induction m with
  | nil => simp [lookupRes] at h
  | cons p rest ih =>
    obtain ⟨k, v⟩ := p
    simp only [lookupRes] at h
    by_cases hk : k = name
    · subst hk
      rw [if_pos rfl] at h
      cases h
      exact List.mem_cons_self _ _
    · rw [if_neg hk] at h
      exact List.mem_cons_of_mem _ (ih h)

theorem mem_insertRes {m : List (String × Resource)} {name : String} {p : String × Resource}
    {r : Resource} (h : p ∈ insertRes m name r) : p ∈ m ∨ p = (name, r) := by
  induction m with
  | nil =>
    simp only [insertRes, List.mem_singleton] at h
    exact Or.inr h
  | cons q rest ih =>
    obtain ⟨k, w⟩ := q
    simp only [insertRes] at h
    by_cases hk : k = name
    · subst hk
      rw [if_pos rfl] at h
      rcases List.mem_cons.mp h with h1 | h1
      · exact Or.inr h1
      · exact Or.inl (List.mem_cons_of_mem _ h1)
    · rw [if_neg hk] at h
      rcases List.mem_cons.mp h with h1 | h1
      · exact Or.inl (List.mem_cons.mpr (Or.inl h1))
      · rcases ih h1 with h2 | h2
        · exact Or.inl (List.mem_cons_of_mem _ h2)
        · exact Or.inr h2

theorem mem_eraseRes {m : List (String × Resource)} {name : String} {p : String × Resource}
    (h : p ∈ eraseRes m name) : p ∈ m := by
  induction m with
  | nil => simp [eraseRes] at h
  | cons q rest ih =>
    obtain ⟨k, w⟩ := q
    simp only [eraseRes] at h
    by_cases hk : k = name
    · rw [if_pos hk] at h
      exact List.mem_cons_of_mem _ h
    · rw [if_neg hk] at h
      rcases List.mem_cons.mp h with h1 | h1
      · exact List.mem_cons.mpr (Or.inl h1)
      · exact List.mem_cons_of_mem _ (ih h1)

theorem lookupRes_insertRes_self (m : List (String × Resource)) (name : String)
    (r : Resource) : lookupRes (insertRes m name r) name = some r := by
  induction m with
  | nil => simp [insertRes, lookupRes]
  | cons q rest ih =>
    obtain ⟨k, w⟩ := q
    simp only [insertRes]
    by_cases hk : k = name
    · subst hk; simp [lookupRes]
    · simp [lookupRes, hk, ih]

theorem countNotify_append (c : Nat) (a b : List Event) :
    countNotify c (a ++ b) = countNotify c a + countNotify c b := by
  induction a with
  | nil => simp [countNotify]
  | cons e rest ih =>
    cases e <;> simp [countNotify, ih] <;> omega

theorem countCleanup_append (c : ResourceCleaner) (a b : List Event) :
    countCleanup c (a ++ b) = countCleanup c a + countCleanup c b := by
  induction a with
  | nil => simp [countCleanup]
  | cons e rest ih =>
    cases e <;> simp [countCleanup, ih] <;> omega

theorem countNotify_map_notify (c : Nat) (ws : List WatcherChan) :
    countNotify c (ws.map (fun w => Event.notify w.cid)) = countChanIn c ws := by
  induction ws with
  | nil => simp [countNotify, countChanIn]
  | cons w rest ih => simp [countNotify, countChanIn, ih]

theorem countCleanup_map_notify (c : ResourceCleaner) (ws : List WatcherChan) :
    countCleanup c (ws.map (fun w => Event.notify w.cid)) = 0 := by
  induction ws with
  | nil => simp [countCleanup]
  | cons w rest ih => simp [countCleanup, ih]

theorem countNotify_map_cleanupCall (c : Nat) (l : List Resource) :
    countNotify c (l.map cleanupCall) = 0 := by
  induction l with
  | nil => simp [countNotify]
  | cons r rest ih =>
    simp only [List.map_cons]
    cases h : r.cleaner <;> simp [cleanupCall, h, countNotify, ih]

theorem countChanIn_append (c : Nat) (a b : List WatcherChan) :
    countChanIn c (a ++ b) = countChanIn c a + countChanIn c b := by
  induction a with
  | nil => simp [countChanIn]
  | cons w rest ih => simp [countChanIn, ih]; omega

theorem countChanIn_mem {w : WatcherChan} {ws : List WatcherChan} (h : w ∈ ws) :
    1 ≤ countChanIn w.cid ws := by
  induction ws with
  | nil => simp at h
  | cons x rest ih =>
    simp only [countChanIn]
    rcases List.mem_cons.mp h with h' | h'
    · subst h'; simp
    · have := ih h'; omega

theorem placeholderCount_le_allCount (m : List (String × Resource)) (c : Nat) :
    placeholderCount m c ≤ allCount m c := by
  induction m with
  | nil => simp [placeholderCount, allCount]
  | cons p rest ih =>
    obtain ⟨k, r⟩ := p
    simp only [placeholderCount, allCount]
    by_cases h : r.wasPut <;> simp [h] <;> omega

theorem placeholderCount_insertRes {m : List (String × Resource)} {name : String}
    {r : Resource} (v : Resource) (c : Nat) (h : lookupRes m name = some r) :
    placeholderCount (insertRes m name v) c +
      (if r.wasPut then 0 else countChanIn c r.watchers) =
    placeholderCount m c + (if v.wasPut then 0 else countChanIn c v.watchers) := by
  induction m with
  | nil => simp [lookupRes] at h
  | cons q rest ih =>
    obtain ⟨k, w⟩ := q
    simp only [lookupRes] at h
    by_cases hk : k = name
    · subst hk
      rw [if_pos rfl] at h
      cases h
      simp only [insertRes, if_pos rfl, placeholderCount]
      omega
    · rw [if_neg hk] at h
      simp only [insertRes, if_neg hk, placeholderCount]
      have := ih h
      omega

theorem allCount_insertRes {m : List (String × Resource)} {name : String}
    {r : Resource} (v : Resource) (c : Nat) (h : lookupRes m name = some r) :
    allCount (insertRes m name v) c + countChanIn c r.watchers =
    allCount m c + countChanIn c v.watchers := by
  induction m with
  | nil => simp [lookupRes] at h
  | cons q rest ih =>
    obtain ⟨k, w⟩ := q
    simp only [lookupRes] at h
    by_cases hk : k = name
    · subst hk
      rw [if_pos rfl] at h
      cases h
      simp only [insertRes, if_pos rfl, allCount]
      omega
    · rw [if_neg hk] at h
      simp only [insertRes, if_neg hk, allCount]
      have := ih h
      omega

theorem placeholderCount_insertRes_new {m : List (String × Resource)} {name : String}
    (v : Resource) (c : Nat) (h : lookupRes m name = none) :
    placeholderCount (insertRes m name v) c =
    placeholderCount m c + (if v.wasPut then 0 else countChanIn c v.watchers) := by
  induction m with
  | nil => simp [insertRes, placeholderCount]
  | cons q rest ih =>
    obtain ⟨k, w⟩ := q
    simp only [lookupRes] at h
    by_cases hk : k = name
    · rw [if_pos hk] at h; cases h
    · rw [if_neg hk] at h
      simp only [insertRes, if_neg hk, placeholderCount]
      have := ih h
      omega

theorem allCount_insertRes_new {m : List (String × Resource)} {name : String}
    (v : Resource) (c : Nat) (h : lookupRes m name = none) :
    allCount (insertRes m name v) c = allCount m c + countChanIn c v.watchers := by
  induction m with
  | nil => simp [insertRes, allCount]
  | cons q rest ih =>
    obtain ⟨k, w⟩ := q
    simp only [lookupRes] at h
    by_cases hk : k = name
    · rw [if_pos hk] at h; cases h
    · rw [if_neg hk] at h
      simp only [insertRes, if_neg hk, allCount]
      have := ih h
      omega

theorem placeholderCount_eraseRes_le (m : List (String × Resource)) (name : String)
    (c : Nat) : placeholderCount (eraseRes m name) c ≤ placeholderCount m c := by
  induction m with
  | nil => simp [eraseRes]
  | cons q rest ih =>
    obtain ⟨k, w⟩ := q
    simp only [eraseRes]
    by_cases hk : k = name
    · rw [if_pos hk]
      simp only [placeholderCount]
      omega
    · rw [if_neg hk]
      simp only [placeholderCount]
      omega

theorem allCount_eraseRes_le (m : List (String × Resource)) (name : String)
    (c : Nat) : allCount (eraseRes m name) c ≤ allCount m c := by
  induction m with
  | nil => simp [eraseRes]
  | cons q rest ih =>
    obtain ⟨k, w⟩ := q
    simp only [eraseRes]
    by_cases hk : k = name
    · rw [if_pos hk]
      simp only [allCount]
      omega
    · rw [if_neg hk]
      simp only [allCount]
      omega

theorem placeholderCount_cleanupPass (m : List (String × Resource)) (c : Nat) :
    placeholderCount (cleanupPass m).1 c = placeholderCount m c := by
  induction m with
  | nil => simp [cleanupPass]
  | cons q rest ih =>
    obtain ⟨k, r⟩ := q
    simp only [cleanupPass]
    by_cases hp : r.wasPut = false
    · simp only [if_pos hp, placeholderCount, hp]
      omega
    · rw [if_neg hp]
      have hput : r.wasPut = true := by revert hp; cases r.wasPut <;> simp
      have h0 : (if r.wasPut then 0 else countChanIn c r.watchers) = 0 := by simp [hput]
      have hput2 : ({ r with stale := true } : Resource).wasPut = true := by
        simpa [Resource.wasPut] using hput
      have h1 : (if ({ r with stale := true } : Resource).wasPut then 0
          else countChanIn c ({ r with stale := true } : Resource).watchers) = 0 := by
        simp [hput2]
      by_cases hs : r.stale
      · rw [if_pos hs]
        simp only [placeholderCount, h0]
        omega
      · rw [if_neg hs]
        simp only [placeholderCount, h0, h1]
        omega

theorem allCount_cleanupPass_le (m : List (String × Resource)) (c : Nat) :
    allCount (cleanupPass m).1 c ≤ allCount m c := by
  induction m with
  | nil => simp [cleanupPass]
  | cons q rest ih =>
    obtain ⟨k, r⟩ := q
    simp only [cleanupPass]
    by_cases hp : r.wasPut = false
    · simp only [if_pos hp, allCount]
      omega
    · rw [if_neg hp]
      by_cases hs : r.stale
      · simp only [if_pos hs, allCount]
        omega
      · simp only [if_neg hs, allCount]
        omega

theorem mem_cleanupPass_kept {m : List (String × Resource)} {p : String × Resource}
    (h : p ∈ (cleanupPass m).1) :
    ∃ q : Resource, (p.1, q) ∈ m ∧ (p.2 = q ∨ p.2 = { q with stale := true }) := by
  induction m with
  | nil => simp [cleanupPass] at h
  | cons e rest ih =>
    obtain ⟨k, r⟩ := e
    simp only [cleanupPass] at h
    by_cases hp : r.wasPut = false
    · rw [if_pos hp] at h
      rcases List.mem_cons.mp h with h1 | h1
      · exact ⟨r, by simp [h1], by simp [h1]⟩
      · obtain ⟨q, hq, hval⟩ := ih h1
        exact ⟨q, List.mem_cons_of_mem _ hq, hval⟩
    · rw [if_neg hp] at h
      by_cases hs : r.stale
      · rw [if_pos hs] at h
        obtain ⟨q, hq, hval⟩ := ih h
        exact ⟨q, List.mem_cons_of_mem _ hq, hval⟩
      · rw [if_neg hs] at h
        rcases List.mem_cons.mp h with h1 | h1
        · exact ⟨r, by simp [Prod.ext_iff.mp h1], Or.inr (by simp [Prod.ext_iff.mp h1])⟩
        · obtain ⟨q, hq, hval⟩ := ih h1
          exact ⟨q, List.mem_cons_of_mem _ hq, hval⟩

theorem mem_cleanupPass_reaped {m : List (String × Resource)} {r' : Resource}
    (h : r' ∈ (cleanupPass m).2) :
    ∃ n q, (n, q) ∈ m ∧ r' = { q with stale := true } ∧ q.wasPut = true ∧
      q.stale = true := by
  induction m with
  | nil => simp [cleanupPass] at h
  | cons e rest ih =>
    obtain ⟨k, r⟩ := e
    simp only [cleanupPass] at h
    by_cases hp : r.wasPut = false
    · rw [if_pos hp] at h
      obtain ⟨n, q, hq, hval⟩ := ih h
      exact ⟨n, q, List.mem_cons_of_mem _ hq, hval⟩
    · rw [if_neg hp] at h
      have hput : r.wasPut = true := by revert hp; cases r.wasPut <;> simp
      by_cases hs : r.stale
      · rw [if_pos hs] at h
        rcases List.mem_cons.mp h with h1 | h1
        · exact ⟨k, r, List.mem_cons_self _ _, h1, hput, hs⟩
        · obtain ⟨n, q, hq, hval⟩ := ih h1
          exact ⟨n, q, List.mem_cons_of_mem _ hq, hval⟩
      · rw [if_neg hs] at h
        obtain ⟨n, q, hq, hval⟩ := ih h
        exact ⟨n, q, List.mem_cons_of_mem _ hq, hval⟩

theorem mem_placeholderCount {m : List (String × Resource)} {name : String}
    {r : Resource} (c : Nat) (h : (name, r) ∈ m) (hp : r.wasPut = false) :
    countChanIn c r.watchers ≤ placeholderCount m c := by
  induction m with
  | nil => simp at h
  | cons q rest ih =>
    obtain ⟨k, w⟩ := q
    simp only [placeholderCount]
    rcases List.mem_cons.mp h with h1 | h1
    · obtain ⟨hk, hw⟩ := Prod.ext_iff.mp h1
      simp only at hk hw
      subst hw
      simp [hp]
    · have := ih h1
      omega

theorem mem_allCount {m : List (String × Resource)} {name : String} {r : Resource}
    (c : Nat) (h : (name, r) ∈ m) : countChanIn c r.watchers ≤ allCount m c := by
  induction m with
  | nil => simp at h
  | cons q rest ih =>
    obtain ⟨k, w⟩ := q
    simp only [allCount]
    rcases List.mem_cons.mp h with h1 | h1
    · obtain ⟨hk, hw⟩ := Prod.ext_iff.mp h1
      simp only at hk hw
      subst hw
      omega
    · have := ih h1
      omega

theorem countNotify_setCreated (c : Nat) (res : IdentifiableCreatable) :
    countNotify c [Event.setCreated res] = 0 := by
  simp [countNotify]

theorem chanInv_put (rc : ResourceStore) (tr : List Event) (name : String)
    (res : IdentifiableCreatable) (cl : ResourceCleaner) (h : ChanInv rc tr) :
    ChanInv (rc.Put name res cl).2.1 (tr ++ (rc.Put name res cl).2.2) := by
  cases hl : lookupRes rc.resources name with
  | none =>
    simp only [ResourceStore.Put, hl]
    refine ⟨?_, ?_, ?_⟩
    · intro c
      rw [List.append_nil]
      have hpc := placeholderCount_insertRes_new
        ({ emptyResource with resource := some res, cleaner := some cl, name := name }) c hl
      rw [hpc]
      have hput : ({ emptyResource with resource := some res, cleaner := some cl, name := name } : Resource).wasPut = true := rfl
      rw [hput]
      have := h.send_bound c
      simpa using this
    · intro c hc
      rw [List.append_nil]
      have hac := allCount_insertRes_new
        ({ emptyResource with resource := some res, cleaner := some cl, name := name }) c hl
      rw [hac]
      have hnil : countChanIn c ({ emptyResource with resource := some res, cleaner := some cl, name := name } : Resource).watchers = 0 := rfl
      rw [hnil]
      have := h.fresh_unused c hc
      exact ⟨this.1, by omega⟩
    · intro p hp w hw
      rcases mem_insertRes hp with h1 | h1
      · exact h.cap_one p h1 w hw
      · subst h1
        simp [emptyResource] at hw
  | some r =>
    cases hw : r.wasPut with
    | true =>
      simp only [ResourceStore.Put, hl]
      rw [if_pos hw]
      dsimp only
      rw [List.append_nil]
      exact h
    | false =>
      have hcond : ¬ (r.wasPut = true) := by simp [hw]
      simp only [ResourceStore.Put, hl]
      rw [if_neg hcond]
      dsimp only
      have hmem : (name, r) ∈ rc.resources := lookupRes_mem hl
      refine ⟨?_, ?_, ?_⟩
      · intro c
        dsimp only
        rw [countNotify_append, countNotify_map_notify]
        have hpc := placeholderCount_insertRes
          ({ r with resource := some res, cleaner := some cl, name := name }) c hl
        rw [hw] at hpc
        have hput : ({ r with resource := some res, cleaner := some cl, name := name } : Resource).wasPut = true := rfl
        rw [hput] at hpc
        simp only [Bool.false_eq_true, if_false, if_true] at hpc
        have := h.send_bound c
        omega
      · intro c hc
        dsimp only at hc ⊢
        rw [countNotify_append, countNotify_map_notify]
        have hac := allCount_insertRes
          ({ r with resource := some res, cleaner := some cl, name := name }) c hl
        have hsame : countChanIn c ({ r with resource := some res, cleaner := some cl, name := name } : Resource).watchers = countChanIn c r.watchers := rfl
        rw [hsame] at hac
        have h1 := h.fresh_unused c hc
        have h2 : countChanIn c r.watchers ≤ allCount rc.resources c := mem_allCount c hmem
        exact ⟨by omega, by omega⟩
      · intro p hp w hwm
        rcases mem_insertRes hp with h1 | h1
        · exact h.cap_one p h1 w hwm
        · subst h1
          exact h.cap_one (name, r) hmem w hwm

theorem chanInv_get (rc : ResourceStore) (tr : List Event) (name : String)
    (h : ChanInv rc tr) :
    ChanInv (rc.Get name).2.1 (tr ++ (rc.Get name).2.2) := by
  cases hl : lookupRes rc.resources name with
  | none =>
    simp only [ResourceStore.Get, hl]
    rw [List.append_nil]
    exact h
  | some r =>
    cases hres : r.resource with
    | none =>
      simp only [ResourceStore.Get, hl, hres]
      rw [List.append_nil]
      exact h
    | some res =>
      simp only [ResourceStore.Get, hl, hres]
      refine ⟨?_, ?_, ?_⟩
      · intro c
        dsimp only
        rw [countNotify_append, countNotify_setCreated]
        have h1 := h.send_bound c
        have h2 := placeholderCount_eraseRes_le rc.resources name c
        omega
      · intro c hc
        dsimp only at hc ⊢
        rw [countNotify_append, countNotify_setCreated]
        have h1 := h.fresh_unused c hc
        have h2 := allCount_eraseRes_le rc.resources name c
        exact ⟨by omega, by omega⟩
      · intro p hp w hwm
        exact h.cap_one p (mem_eraseRes hp) w hwm

theorem pc_insert_put_true {m : List (String × Resource)} {name : String}
    {r : Resource} (v : Resource) (c : Nat) (hl : lookupRes m name = some r)
    (hr : r.wasPut = true) (hv : v.wasPut = true) :
    placeholderCount (insertRes m name v) c = placeholderCount m c := by
  have h := placeholderCount_insertRes v c hl
  rw [hr, hv] at h
  simp at h
  omega

theorem pc_insert_put_false {m : List (String × Resource)} {name : String}
    {r : Resource} (v : Resource) (c : Nat) (hl : lookupRes m name = some r)
    (hr : r.wasPut = false) (hv : v.wasPut = false) :
    placeholderCount (insertRes m name v) c + countChanIn c r.watchers =
      placeholderCount m c + countChanIn c v.watchers := by
  have h := placeholderCount_insertRes v c hl
  rw [hr, hv] at h
  simp at h
  omega

theorem pc_insert_new_put_false {m : List (String × Resource)} {name : String}
    (v : Resource) (c : Nat) (hl : lookupRes m name = none)
    (hv : v.wasPut = false) :
    placeholderCount (insertRes m name v) c =
      placeholderCount m c + countChanIn c v.watchers := by
  have h := placeholderCount_insertRes_new v c hl
  rw [hv] at h
  simp at h
  omega

theorem chanInv_watch (rc : ResourceStore) (tr : List Event) (name : String)
    (h : ChanInv rc tr) : ChanInv (rc.WatcherForResource name).2 tr := by
  cases hl : lookupRes rc.resources name with
  | none =>
    simp only [ResourceStore.WatcherForResource, hl]
    refine ⟨?_, ?_, ?_⟩
    · intro c
      dsimp only
      have hfw : ({ emptyResource with watchers := [mkWatcherChan rc.nextChan], name := name } : Resource).wasPut = false := rfl
      have hpc := pc_insert_new_put_false
        ({ emptyResource with watchers := [mkWatcherChan rc.nextChan], name := name }) c hl hfw
      rw [hpc]
      have hcc : countChanIn c ({ emptyResource with watchers := [mkWatcherChan rc.nextChan], name := name } : Resource).watchers = (if rc.nextChan = c then 1 else 0) := by
        simp [countChanIn, mkWatcherChan]
      rw [hcc]
      by_cases hc : rc.nextChan = c
      · rw [if_pos hc]
        have h1 := h.fresh_unused c (by omega)
        have h2 := placeholderCount_le_allCount rc.resources c
        omega
      · rw [if_neg hc]
        have := h.send_bound c
        omega
    · intro c hc
      dsimp only at hc ⊢
      have hac := allCount_insertRes_new
        ({ emptyResource with watchers := [mkWatcherChan rc.nextChan], name := name }) c hl
      rw [hac]
      have h1 := h.fresh_unused c (by omega)
      have h2 : countChanIn c ({ emptyResource with watchers := [mkWatcherChan rc.nextChan], name := name } : Resource).watchers = 0 := by
        have hne : rc.nextChan ≠ c := by omega
        simp [countChanIn, mkWatcherChan, hne]
      rw [h2]
      exact ⟨h1.1, by omega⟩
    · intro p hp w hwm
      rcases mem_insertRes hp with h1 | h1
      · exact h.cap_one p h1 w hwm
      · subst h1
        simp only [List.mem_singleton] at hwm
        rw [hwm]
        rfl
  | some r =>
    simp only [ResourceStore.WatcherForResource, hl]
    have hmem : (name, r) ∈ rc.resources := lookupRes_mem hl
    refine ⟨?_, ?_, ?_⟩
    · intro c
      dsimp only
      have hfw : ({ r with watchers := r.watchers ++ [mkWatcherChan rc.nextChan] } : Resource).wasPut = r.wasPut := rfl
      have happ : countChanIn c ({ r with watchers := r.watchers ++ [mkWatcherChan rc.nextChan] } : Resource).watchers = countChanIn c r.watchers + (if rc.nextChan = c then 1 else 0) := by
        rw [countChanIn_append]
        simp [countChanIn, mkWatcherChan]
      cases hput : r.wasPut with
      | true =>
        have hpc := pc_insert_put_true
          ({ r with watchers := r.watchers ++ [mkWatcherChan rc.nextChan] }) c hl hput
          (by rw [hfw, hput])
        rw [hpc]
        have := h.send_bound c
        omega
      | false =>
        have hpc := pc_insert_put_false
          ({ r with watchers := r.watchers ++ [mkWatcherChan rc.nextChan] }) c hl hput
          (by rw [hfw, hput])
        rw [happ] at hpc
        by_cases hc : rc.nextChan = c
        · rw [if_pos hc] at hpc
          have h1 := h.fresh_unused c (by omega)
          have h2 := placeholderCount_le_allCount rc.resources c
          omega
        · rw [if_neg hc] at hpc
          have := h.send_bound c
          omega
    · intro c hc
      dsimp only at hc ⊢
      have hac := allCount_insertRes
        ({ r with watchers := r.watchers ++ [mkWatcherChan rc.nextChan] }) c hl
      have happ : countChanIn c ({ r with watchers := r.watchers ++ [mkWatcherChan rc.nextChan] } : Resource).watchers = countChanIn c r.watchers + (if rc.nextChan = c then 1 else 0) := by
        rw [countChanIn_append]
        simp [countChanIn, mkWatcherChan]
      rw [happ] at hac
      have hne : rc.nextChan ≠ c := by omega
      rw [if_neg hne] at hac
      have h1 := h.fresh_unused c (by omega)
      exact ⟨h1.1, by omega⟩
    · intro p hp w hwm
      rcases mem_insertRes hp with h1 | h1
      · exact h.cap_one p h1 w hwm
      · subst h1
        simp only [List.mem_append, List.mem_singleton] at hwm
        rcases hwm with hwm | hwm
        · exact h.cap_one (name, r) hmem w hwm
        · rw [hwm]
          rfl

theorem chanInv_close (rc : ResourceStore) (tr : List Event) (h : ChanInv rc tr) :
    ChanInv rc.Close tr := by
  unfold ResourceStore.Close
  by_cases hc : rc.closed
  · rw [if_pos hc]
    exact h
  · rw [if_neg hc]
    exact ⟨h.send_bound, h.fresh_unused, h.cap_one⟩

theorem chanInv_reap (rc : ResourceStore) (tr : List Event) (h : ChanInv rc tr) :
    ChanInv rc.cleanupStaleResourcesStep.1 (tr ++ rc.cleanupStaleResourcesStep.2) := by
  simp only [ResourceStore.cleanupStaleResourcesStep]
  by_cases hc : rc.closeChanClosed
  · rw [if_pos hc]
    simpa using h
  · rw [if_neg hc]
    refine ⟨?_, ?_, ?_⟩
    · intro c
      dsimp only
      rw [countNotify_append, countNotify_map_cleanupCall, placeholderCount_cleanupPass]
      have := h.send_bound c
      omega
    · intro c hc2
      dsimp only at hc2 ⊢
      rw [countNotify_append, countNotify_map_cleanupCall]
      have h1 := h.fresh_unused c hc2
      have h2 := allCount_cleanupPass_le rc.resources c
      exact ⟨by omega, by omega⟩
    · intro p hp w hwp
      obtain ⟨q, hq, hval⟩ := mem_cleanupPass_kept hp
      rcases hval with hv | hv
      · exact h.cap_one (p.1, q) hq w (by rw [← hv]; exact hwp)
      · have hwq : w ∈ q.watchers := by
          have heq : p.2.watchers = q.watchers := by rw [hv]
          rwa [heq] at hwp
        exact h.cap_one (p.1, q) hq w hwq

theorem chanInv_stepOp (rc : ResourceStore) (tr : List Event) (op : Op)
    (h : ChanInv rc tr) : ChanInv (stepOp rc op).1 (tr ++ (stepOp rc op).2) := by
  cases op with
  | put name res cl => exact chanInv_put rc tr name res cl h
  | get name => exact chanInv_get rc tr name h
  | watch name =>
    simp only [stepOp]
    rw [List.append_nil]
    exact chanInv_watch rc tr name h
  | close =>
    simp only [stepOp]
    rw [List.append_nil]
    exact chanInv_close rc tr h
  | reap => exact chanInv_reap rc tr h

theorem chanInv_runOps (ops : List Op) : ∀ (rc : ResourceStore) (tr : List Event),
    ChanInv rc tr → ChanInv (runOps rc ops).1 (tr ++ (runOps rc ops).2) := by
  induction ops with
  | nil =>
    intro rc tr h
    simpa [runOps] using h
  | cons op rest ih =>
    intro rc tr h
    simp only [runOps]
    have h1 := chanInv_stepOp rc tr op h
    have h2 := ih (stepOp rc op).1 (tr ++ (stepOp rc op).2) h1
    rw [← List.append_assoc]
    exact h2

theorem chanInv_init (t : Nat) : ChanInv (newWithTimeout t) [] := by
  refine ⟨?_, ?_, ?_⟩
  · intro c
    simp [countNotify, newWithTimeout, placeholderCount]
  · intro c hc
    simp [countNotify, newWithTimeout, allCount]
  · intro p hp
    simp [newWithTimeout] at hp

theorem pc_insert_new_put_true {m : List (String × Resource)} {name : String}
    (v : Resource) (c : Nat) (hl : lookupRes m name = none) (hv : v.wasPut = true) :
    placeholderCount (insertRes m name v) c = placeholderCount m c := by
  have h := placeholderCount_insertRes_new v c hl
  rw [hv] at h
  simp at h
  omega

theorem pc_insert_populate {m : List (String × Resource)} {name : String}
    {r : Resource} (v : Resource) (c : Nat) (hl : lookupRes m name = some r)
    (hr : r.wasPut = false) (hv : v.wasPut = true) :
    placeholderCount (insertRes m name v) c + countChanIn c r.watchers =
      placeholderCount m c := by
  have h := placeholderCount_insertRes v c hl
  rw [hr, hv] at h
  simp at h
  omega

theorem countCleanup_setCreated (c : ResourceCleaner) (res : IdentifiableCreatable) :
    countCleanup c [Event.setCreated res] = 0 := by
  simp [countCleanup]

theorem countCleanup_map_cleanupCall {c : ResourceCleaner} {l : List Resource}
    (h : ∀ r ∈ l, r.cleaner ≠ some c) : countCleanup c (l.map cleanupCall) = 0 := by
  induction l with
  | nil => simp [countCleanup]
  | cons r rest ih =>
    have hr := h r (List.mem_cons_self _ _)
    have hrest : ∀ r' ∈ rest, r'.cleaner ≠ some c :=
      fun r' hm => h r' (List.mem_cons_of_mem _ hm)
    simp only [List.map_cons]
    cases hc : r.cleaner with
    | none => simp [cleanupCall, hc, countCleanup, ih hrest]
    | some c' =>
      have hne : c' ≠ c := by
        intro he
        exact hr (by rw [hc, he])
      simp [cleanupCall, hc, countCleanup, hne, ih hrest]

theorem unreachableChan_stepOp (rc : ResourceStore) (c : Nat) (op : Op)
    (h : unreachableChan rc c) :
    unreachableChan (stepOp rc op).1 c ∧ countNotify c (stepOp rc op).2 = 0 := by
  obtain ⟨hlt, hpc0⟩ := h
  cases op with
  | put name res cl =>
    cases hl : lookupRes rc.resources name with
    | none =>
      simp only [stepOp, ResourceStore.Put, hl]
      have hv : ({ emptyResource with resource := some res, cleaner := some cl, name := name } : Resource).wasPut = true := rfl
      have hpc := pc_insert_new_put_true
        ({ emptyResource with resource := some res, cleaner := some cl, name := name }) c hl hv
      exact ⟨⟨hlt, by rw [hpc]; exact hpc0⟩, rfl⟩
    | some r =>
      cases hw : r.wasPut with
      | true =>
        simp only [stepOp, ResourceStore.Put, hl]
        rw [if_pos hw]
        exact ⟨⟨hlt, hpc0⟩, rfl⟩
      | false =>
        have hcond : ¬ (r.wasPut = true) := by simp [hw]
        simp only [stepOp, ResourceStore.Put, hl]
        rw [if_neg hcond]
        dsimp only
        have hmem : (name, r) ∈ rc.resources := lookupRes_mem hl
        have hle : countChanIn c r.watchers ≤ placeholderCount rc.resources c :=
          mem_placeholderCount c hmem hw
        have hv : ({ r with resource := some res, cleaner := some cl, name := name } : Resource).wasPut = true := rfl
        have hpc := pc_insert_populate
          ({ r with resource := some res, cleaner := some cl, name := name }) c hl hw hv
        refine ⟨⟨hlt, by dsimp only; omega⟩, ?_⟩
        rw [countNotify_map_notify]
        omega
  | get name =>
    cases hl : lookupRes rc.resources name with
    | none =>
      simp only [stepOp, ResourceStore.Get, hl]
      exact ⟨⟨hlt, hpc0⟩, rfl⟩
    | some r =>
      cases hres : r.resource with
      | none =>
        simp only [stepOp, ResourceStore.Get, hl, hres]
        exact ⟨⟨hlt, hpc0⟩, rfl⟩
      | some res =>
        simp only [stepOp, ResourceStore.Get, hl, hres]
        have h2 := placeholderCount_eraseRes_le rc.resources name c
        exact ⟨⟨hlt, by dsimp only; omega⟩, countNotify_setCreated c res⟩
  | watch name =>
    cases hl : lookupRes rc.resources name with
    | none =>
      simp only [stepOp, ResourceStore.WatcherForResource, hl]
      have hv : ({ emptyResource with watchers := [mkWatcherChan rc.nextChan], name := name } : Resource).wasPut = false := rfl
      have hpc := pc_insert_new_put_false
        ({ emptyResource with watchers := [mkWatcherChan rc.nextChan], name := name }) c hl hv
      have hcc : countChanIn c ({ emptyResource with watchers := [mkWatcherChan rc.nextChan], name := name } : Resource).watchers = 0 := by
        have hne : rc.nextChan ≠ c := by omega
        simp [countChanIn, mkWatcherChan, hne]
      rw [hcc] at hpc
      exact ⟨⟨by dsimp only; omega, by dsimp only; rw [hpc]; omega⟩, rfl⟩
    | some r =>
      simp only [stepOp, ResourceStore.WatcherForResource, hl]
      have hfw : ({ r with watchers := r.watchers ++ [mkWatcherChan rc.nextChan] } : Resource).wasPut = r.wasPut := rfl
      have happ : countChanIn c ({ r with watchers := r.watchers ++ [mkWatcherChan rc.nextChan] } : Resource).watchers = countChanIn c r.watchers := by
        rw [countChanIn_append]
        have hne : rc.nextChan ≠ c := by omega
        simp [countChanIn, mkWatcherChan, hne]
      cases hput : r.wasPut with
      | true =>
        have hpc := pc_insert_put_true
          ({ r with watchers := r.watchers ++ [mkWatcherChan rc.nextChan] }) c hl hput
          (by rw [hfw, hput])
        exact ⟨⟨by dsimp only; omega, by dsimp only; rw [hpc]; omega⟩, rfl⟩
      | false =>
        have hpc := pc_insert_put_false
          ({ r with watchers := r.watchers ++ [mkWatcherChan rc.nextChan] }) c hl hput
          (by rw [hfw, hput])
        rw [happ] at hpc
        exact ⟨⟨by dsimp only; omega, by dsimp only; omega⟩, rfl⟩
  | close =>
    simp only [stepOp, ResourceStore.Close]
    by_cases hc : rc.closed
    · rw [if_pos hc]
      exact ⟨⟨hlt, hpc0⟩, rfl⟩
    · rw [if_neg hc]
      exact ⟨⟨hlt, hpc0⟩, rfl⟩
  | reap =>
    simp only [stepOp, ResourceStore.cleanupStaleResourcesStep]
    by_cases hc : rc.closeChanClosed
    · rw [if_pos hc]
      exact ⟨⟨hlt, hpc0⟩, rfl⟩
    · rw [if_neg hc]
      have hpc := placeholderCount_cleanupPass rc.resources c
      exact ⟨⟨hlt, by rw [hpc]; exact hpc0⟩, countNotify_map_cleanupCall c _⟩

theorem unreachableChan_runOps (ops : List Op) : ∀ rc : ResourceStore, ∀ c : Nat,
    unreachableChan rc c →
    unreachableChan (runOps rc ops).1 c ∧ countNotify c (runOps rc ops).2 = 0 := by
  induction ops with
  | nil =>
    intro rc c h
    exact ⟨h, rfl⟩
  | cons op rest ih =>
    intro rc c h
    simp only [runOps]
    have h1 := unreachableChan_stepOp rc c op h
    have h2 := ih (stepOp rc op).1 c h1.1
    refine ⟨h2.1, ?_⟩
    rw [countNotify_append, h1.2, h2.2]

theorem cleanerAbsent_stepOp (rc : ResourceStore) (c : ResourceCleaner) (op : Op)
    (h : cleanerAbsent rc.resources c) (hop : opPutsCleaner c op = false) :
    cleanerAbsent (stepOp rc op).1.resources c ∧ countCleanup c (stepOp rc op).2 = 0 := by
  cases op with
  | put name res cl =>
    have hcl : ¬ (cl = c) := by simpa [opPutsCleaner] using hop
    cases hl : lookupRes rc.resources name with
    | none =>
      simp only [stepOp, ResourceStore.Put, hl]
      refine ⟨?_, rfl⟩
      intro p hp
      rcases mem_insertRes hp with h1 | h1
      · exact h p h1
      · subst h1
        simp only
        intro he
        exact hcl (by injection he)
    | some r =>
      cases hw : r.wasPut with
      | true =>
        simp only [stepOp, ResourceStore.Put, hl]
        rw [if_pos hw]
        exact ⟨h, rfl⟩
      | false =>
        have hcond : ¬ (r.wasPut = true) := by simp [hw]
        simp only [stepOp, ResourceStore.Put, hl]
        rw [if_neg hcond]
        dsimp only
        refine ⟨?_, countCleanup_map_notify c r.watchers⟩
        intro p hp
        rcases mem_insertRes hp with h1 | h1
        · exact h p h1
        · subst h1
          simp only
          intro he
          exact hcl (by injection he)
  | get name =>
    cases hl : lookupRes rc.resources name with
    | none =>
      simp only [stepOp, ResourceStore.Get, hl]
      exact ⟨h, rfl⟩
    | some r =>
      cases hres : r.resource with
      | none =>
        simp only [stepOp, ResourceStore.Get, hl, hres]
        exact ⟨h, rfl⟩
      | some res =>
        simp only [stepOp, ResourceStore.Get, hl, hres]
        refine ⟨?_, countCleanup_setCreated c res⟩
        intro p hp
        exact h p (mem_eraseRes hp)
  | watch name =>
    cases hl : lookupRes rc.resources name with
    | none =>
      simp only [stepOp, ResourceStore.WatcherForResource, hl]
      refine ⟨?_, rfl⟩
      intro p hp
      rcases mem_insertRes hp with h1 | h1
      · exact h p h1
      · subst h1
        simp [emptyResource]
    | some r =>
      simp only [stepOp, ResourceStore.WatcherForResource, hl]
      refine ⟨?_, rfl⟩
      intro p hp
      rcases mem_insertRes hp with h1 | h1
      · exact h p h1
      · subst h1
        exact h (name, r) (lookupRes_mem hl)
  | close =>
    simp only [stepOp, ResourceStore.Close]
    by_cases hc : rc.closed
    · rw [if_pos hc]
      exact ⟨h, rfl⟩
    · rw [if_neg hc]
      exact ⟨h, rfl⟩
  | reap =>
    simp only [stepOp, ResourceStore.cleanupStaleResourcesStep]
    by_cases hc : rc.closeChanClosed
    · rw [if_pos hc]
      exact ⟨h, rfl⟩
    · rw [if_neg hc]
      constructor
      · intro p hp
        obtain ⟨q, hq, hval⟩ := mem_cleanupPass_kept hp
        have hqc := h (p.1, q) hq
        rcases hval with hv | hv
        · rw [hv]
          exact hqc
        · rw [hv]
          exact hqc
      · refine countCleanup_map_cleanupCall ?_
        intro r' hr'
        obtain ⟨n, q, hq, hval, _, _⟩ := mem_cleanupPass_reaped hr'
        rw [hval]
        exact h (n, q) hq

theorem cleanerAbsent_runOps (ops : List Op) : ∀ rc : ResourceStore,
    ∀ c : ResourceCleaner, cleanerAbsent rc.resources c →
    (∀ op ∈ ops, opPutsCleaner c op = false) →
    cleanerAbsent (runOps rc ops).1.resources c ∧
      countCleanup c (runOps rc ops).2 = 0 := by
  induction ops with
  | nil =>
    intro rc c h _
    exact ⟨h, rfl⟩
  | cons op rest ih =>
    intro rc c h hops
    simp only [runOps]
    have h1 := cleanerAbsent_stepOp rc c op h (hops op (List.mem_cons_self _ _))
    have h2 := ih (stepOp rc op).1 c h1.1
      (fun o ho => hops o (List.mem_cons_of_mem _ ho))
    refine ⟨h2.1, ?_⟩
    rw [countCleanup_append, h1.2, h2.2]

theorem mem_eraseRes_ne {m : List (String × Resource)} {name : String}
    {p : String × Resource} (hnd : (m.map Prod.fst).Nodup)
    (hp : p ∈ eraseRes m name) : p ∈ m ∧ p.1 ≠ name := by
  induction m with
  | nil => simp [eraseRes] at hp
  | cons q rest ih =>
    obtain ⟨k, v⟩ := q
    simp only [List.map_cons, List.nodup_cons] at hnd
    obtain ⟨hk, hnd'⟩ := hnd
    simp only [eraseRes] at hp
    by_cases hkn : k = name
    · rw [if_pos hkn] at hp
      subst hkn
      constructor
      · exact List.mem_cons_of_mem _ hp
      · intro he
        exact hk (he ▸ List.mem_map_of_mem Prod.fst hp)
    · rw [if_neg hkn] at hp
      rcases List.mem_cons.mp hp with h1 | h1
      · refine ⟨List.mem_cons.mpr (Or.inl h1), ?_⟩
        rw [h1]
        exact hkn
      · obtain ⟨hm, hne⟩ := ih hnd' h1
        exact ⟨List.mem_cons_of_mem _ hm, hne⟩

theorem cleanupPass_lookup_fresh (m : List (String × Resource)) (name : String)
    (r : Resource) (hl : lookupRes m name = some r) (hw : r.wasPut = true)
    (hs : r.stale = false) :
    lookupRes (cleanupPass m).1 name = some { r with stale := true } := by
  induction m with
  | nil => simp [lookupRes] at hl
  | cons q rest ih =>
    obtain ⟨k, v⟩ := q
    simp only [lookupRes] at hl
    by_cases hk : k = name
    · subst hk
      rw [if_pos rfl] at hl
      cases hl
      simp only [cleanupPass]
      rw [if_neg (show ¬ (r.wasPut = false) by simp [hw]),
        if_neg (show ¬ (r.stale = true) by simp [hs])]
      dsimp only
      simp [lookupRes]
    · rw [if_neg hk] at hl
      simp only [cleanupPass]
      by_cases hv : v.wasPut = false
      · rw [if_pos hv]
        dsimp only
        simp only [lookupRes]
        rw [if_neg hk]
        exact ih hl
      · rw [if_neg hv]
        by_cases hvs : v.stale
        · rw [if_pos hvs]
          dsimp only
          exact ih hl
        · rw [if_neg hvs]
          dsimp only
          simp only [lookupRes]
          rw [if_neg hk]
          exact ih hl

theorem cleanupPass_all_stale (m : List (String × Resource)) :
    ∀ p ∈ (cleanupPass m).1, p.2.wasPut = true → p.2.stale = true := by
  induction m with
  | nil =>
    intro p hp
    simp [cleanupPass] at hp
  | cons q rest ih =>
    obtain ⟨k, v⟩ := q
    intro p hp hput
    simp only [cleanupPass] at hp
    by_cases hv : v.wasPut = false
    · rw [if_pos hv] at hp
      dsimp only at hp
      rcases List.mem_cons.mp hp with h1 | h1
      · rw [h1] at hput
        rw [hv] at hput
        cases hput
      · exact ih p h1 hput
    · rw [if_neg hv] at hp
      by_cases hvs : v.stale
      · rw [if_pos hvs] at hp
        dsimp only at hp
        exact ih p hp hput
      · rw [if_neg hvs] at hp
        dsimp only at hp
        rcases List.mem_cons.mp hp with h1 | h1
        · rw [h1]
        · exact ih p h1 hput

theorem mem_cleanupPass_placeholder {m : List (String × Resource)} {name : String}
    {r : Resource} (hmem : (name, r) ∈ m) (hp : r.wasPut = false) :
    (name, r) ∈ (cleanupPass m).1 := by
  induction m with
  | nil => simp at hmem
  | cons q rest ih =>
    obtain ⟨k, v⟩ := q
    simp only [cleanupPass]
    rcases List.mem_cons.mp hmem with h1 | h1
    · obtain ⟨hk, hv⟩ := Prod.ext_iff.mp h1
      simp only at hk hv
      subst hk
      subst hv
      rw [if_pos hp]
      dsimp only
      exact List.mem_cons_self _ _
    · have hmem2 := ih h1
      by_cases hv : v.wasPut = false
      · rw [if_pos hv]
        dsimp only
        exact List.mem_cons_of_mem _ hmem2
      · rw [if_neg hv]
        by_cases hvs : v.stale
        · rw [if_pos hvs]
          dsimp only
          exact hmem2
        · rw [if_neg hvs]
          dsimp only
          exact List.mem_cons_of_mem _ hmem2

/-- C1: For every store state and every name, `Get(name)` returns the empty
string and leaves the registry unchanged when the name is absent or maps to
a placeholder; otherwise `Get` removes the entry from the registry, calls
`SetCreated()` on its resource exactly once (the emitted trace is the
single `setCreated` event), and returns the resource's `ID()`. -/
theorem get_spec (rc : ResourceStore) (name : String) :
    ((lookupRes rc.resources name = none ∨
        ∃ r, lookupRes rc.resources name = some r ∧ r.wasPut = false) →
      rc.Get name = ("", rc, [])) ∧
    (∀ r res, lookupRes rc.resources name = some r → r.resource = some res →
      rc.Get name = (res.idStr,
        { rc with resources := eraseRes rc.resources name },
        [Event.setCreated res])) := by
  constructor
  · intro h
    rcases h with h | ⟨r, hl, hw⟩
    · simp [ResourceStore.Get, h]
    · have hres : r.resource = none := by
        cases hr : r.resource with
        | none => rfl
        | some x =>
          unfold Resource.wasPut at hw
          rw [hr] at hw
          simp at hw
      simp [ResourceStore.Get, hl, hres]
  · intro r res hl hres
    simp [ResourceStore.Get, hl, hres]

theorem get_spec_witness :
    storePlaceholderB.Get "b" = ("", storePlaceholderB, []) ∧
    storeFullA.Get "a" = ("id-a",
      { storeFullA with resources := eraseRes storeFullA.resources "a" },
      [Event.setCreated resA]) :=
  ⟨(get_spec storePlaceholderB "b").1
      (Or.inr ⟨entryPlaceholderB, by decide, by decide⟩),
    (get_spec storeFullA "a").2 entryFullA resA (by decide) (by decide)⟩

/-- C2: `Put` on a name that maps to a fully populated entry returns a
duplicate error naming the key and returns the store unchanged (hence the
registry, the existing entry with all its fields, and — the embedding
being pure — the arguments are untouched), and emits no notification. -/
theorem put_duplicate_spec (rc : ResourceStore) (name : String)
    (res : IdentifiableCreatable) (cleaner : ResourceCleaner) (r : Resource)
    (hl : lookupRes rc.resources name = some r) (hw : r.wasPut = true) :
    rc.Put name res cleaner =
      (Except.error ("failed to add entry " ++ name ++
        " to ResourceStore; entry already exists"), rc, []) := by
  simp [ResourceStore.Put, hl, hw]

theorem put_duplicate_spec_witness :
    storeFullA.Put "a" resB clnB =
      (Except.error ("failed to add entry " ++ "a" ++
        " to ResourceStore; entry already exists"), storeFullA, []) :=
  put_duplicate_spec storeFullA "a" resB clnB entryFullA (by decide) (by decide)

/-- C3: In a reaper cycle, a populated entry is removed only if it was
already stale at the cycle's visit (a populated fresh entry survives, with
its stale flag set), and every populated entry still in the registry after
the cycle is stale; hence fresh → stale → deleted takes two cycles. -/
theorem reaper_two_phase_spec (m : List (String × Resource)) (name : String)
    (r : Resource) (hl : lookupRes m name = some r) (hw : r.wasPut = true) :
    (r.stale = false →
      lookupRes (cleanupPass m).1 name = some { r with stale := true }) ∧
    (lookupRes (cleanupPass m).1 name = none → r.stale = true) ∧
    (∀ p ∈ (cleanupPass m).1, p.2.wasPut = true → p.2.stale = true) := by
  refine ⟨?_, ?_, cleanupPass_all_stale m⟩
  · intro hs
    exact cleanupPass_lookup_fresh m name r hl hw hs
  · intro hnone
    cases hst : r.stale with
    | true => rfl
    | false =>
      have hsome := cleanupPass_lookup_fresh m name r hl hw hst
      rw [hnone] at hsome
      cases hsome

theorem reaper_two_phase_spec_witness :
    lookupRes (cleanupPass [("a", entryFullA)]).1 "a" =
      some { entryFullA with stale := true } :=
  (reaper_two_phase_spec [("a", entryFullA)] "a" entryFullA
    (by decide) (by decide)).1 rfl

/-- C4: The reaper never touches a placeholder: an entry whose resource is
unset is kept in the registry completely unchanged (in particular not
marked stale), is never put on the reap list, every reaped entry was
populated, and — given the invariant that populated entries carry a
cleaner — the nil-cleaner dereference in the cleanup loop is unreachable. -/
theorem reaper_skips_placeholders_spec (m : List (String × Resource))
    (name : String) (r : Resource) (hmem : (name, r) ∈ m)
    (hp : r.wasPut = false) :
    (name, r) ∈ (cleanupPass m).1 ∧
    r ∉ (cleanupPass m).2 ∧
    (∀ r' ∈ (cleanupPass m).2, r'.wasPut = true) ∧
    ((∀ p ∈ m, p.2.wasPut = true → p.2.cleaner.isSome = true) →
      Event.nilCleanerDeref ∉ (cleanupPass m).2.map cleanupCall) := by
  refine ⟨mem_cleanupPass_placeholder hmem hp, ?_, ?_, ?_⟩
  · intro hr
    obtain ⟨n, q, _, hval, hput, _⟩ := mem_cleanupPass_reaped hr
    have hq : r.wasPut = true := by
      rw [hval]
      exact hput
    rw [hp] at hq
    cases hq
  · intro r' hr'
    obtain ⟨n, q, _, hval, hput, _⟩ := mem_cleanupPass_reaped hr'
    rw [hval]
    exact hput
  · intro hI2 hmemE
    obtain ⟨r', hr', hcall⟩ := List.mem_map.mp hmemE
    obtain ⟨n, q, hq, hval, hput, _⟩ := mem_cleanupPass_reaped hr'
    have hsome := hI2 (n, q) hq hput
    have hcln : r'.cleaner = q.cleaner := by rw [hval]
    cases hc : q.cleaner with
    | none =>
      rw [hc] at hsome
      cases hsome
    | some c2 =>
      have hcc : cleanupCall r' = Event.cleanup c2 := by
        simp [cleanupCall, hcln, hc]
      rw [hcc] at hcall
      cases hcall

theorem reaper_skips_placeholders_spec_witness :
    ("b", entryPlaceholderB) ∈
      (cleanupPass [("b", entryPlaceholderB), ("a", entryStaleA)]).1 ∧
    Event.nilCleanerDeref ∉
      (cleanupPass [("b", entryPlaceholderB), ("a", entryStaleA)]).2.map cleanupCall := by
  have h := reaper_skips_placeholders_spec
    [("b", entryPlaceholderB), ("a", entryStaleA)] "b" entryPlaceholderB
    (by decide) (by decide)
  exact ⟨h.1, h.2.2.2 (by decide)⟩

/-- C9: `Close` is idempotent: composing it with itself equals a single
`Close`; a first call on an open store closes the channel and sets the
flag; any call on a closed store is the identity (no second signal, no
state change). -/
theorem close_idempotent_spec (rc : ResourceStore) :
    rc.Close.Close = rc.Close ∧
    (rc.closed = false →
      rc.Close = { rc with closeChanClosed := true, closed := true }) ∧
    (rc.closed = true → rc.Close = rc) := by
  refine ⟨?_, ?_, ?_⟩
  · unfold ResourceStore.Close
    by_cases hc : rc.closed
    · simp [hc]
    · simp [hc]
  · intro hc
    unfold ResourceStore.Close
    simp [hc]
  · intro hc
    unfold ResourceStore.Close
    simp [hc]

theorem close_idempotent_spec_witness :
    storeFullA.Close.Close = storeFullA.Close ∧
    storeFullA.Close = { storeFullA with closeChanClosed := true, closed := true } :=
  ⟨(close_idempotent_spec storeFullA).1,
    (close_idempotent_spec storeFullA).2.1 rfl⟩

/-- C8: `WatcherForResource` allocates a fresh capacity-one channel (the
next channel identity, which under the freshness hypothesis occurs in no
existing watcher list) and returns it without blocking (the embedding is a
total function); a present entry gets the channel appended to its watcher
list, an absent name gets a new placeholder — no resource, no cleaner,
exactly this one watcher — inserted under it; nothing else changes. -/
theorem watcher_for_resource_spec (rc : ResourceStore) (name : String)
    (hfresh : allCount rc.resources rc.nextChan = 0) :
    (rc.WatcherForResource name).1 = mkWatcherChan rc.nextChan ∧
    (rc.WatcherForResource name).1.cap = 1 ∧
    allCount rc.resources (rc.WatcherForResource name).1.cid = 0 ∧
    (∀ r, lookupRes rc.resources name = some r →
      (rc.WatcherForResource name).2.resources =
        insertRes rc.resources name
          { r with watchers := r.watchers ++ [mkWatcherChan rc.nextChan] }) ∧
    (lookupRes rc.resources name = none →
      (rc.WatcherForResource name).2.resources =
        insertRes rc.resources name
          { resource := none, cleaner := none,
            watchers := [mkWatcherChan rc.nextChan], stale := false, name := name }) ∧
    (rc.WatcherForResource name).2.nextChan = rc.nextChan + 1 ∧
    (rc.WatcherForResource name).2.closed = rc.closed ∧
    (rc.WatcherForResource name).2.closeChanClosed = rc.closeChanClosed ∧
    (rc.WatcherForResource name).2.timeout = rc.timeout := by
  cases hl : lookupRes rc.resources name with
  | none =>
    refine ⟨?_, ?_, ?_, ?_, ?_, ?_, ?_, ?_, ?_⟩ <;>
      simp [ResourceStore.WatcherForResource, hl, mkWatcherChan, emptyResource, hfresh]
  | some r =>
    refine ⟨?_, ?_, ?_, ?_, ?_, ?_, ?_, ?_, ?_⟩ <;>
      simp [ResourceStore.WatcherForResource, hl, mkWatcherChan, hfresh]

theorem watcher_for_resource_spec_witness :
    (storeFullA.WatcherForResource "a").1 = mkWatcherChan 0 ∧
    (storeFullA.WatcherForResource "a").2.resources =
      insertRes storeFullA.resources "a"
        { entryFullA with watchers := entryFullA.watchers ++ [mkWatcherChan 0] } := by
  have h := watcher_for_resource_spec storeFullA "a" (by decide)
  exact ⟨h.1, h.2.2.2.1 entryFullA (by decide)⟩

/-- C5: When `name` is absent or maps to a placeholder, `Put` succeeds,
stores the resource and cleaner in the entry under `name`, and emits
exactly one notification per watcher attached at the moment of the call;
each such send is non-blocking because the channel was allocated with
capacity one and (in any reachable store/trace pair) has received no prior
notification. -/
theorem put_notifies_watchers_spec (rc : ResourceStore) (tr : List Event)
    (name : String) (res : IdentifiableCreatable) (cleaner : ResourceCleaner)
    (hinv : ChanInv rc tr)
    (hfree : lookupRes rc.resources name = none ∨
      ∃ r, lookupRes rc.resources name = some r ∧ r.wasPut = false) :
    (rc.Put name res cleaner).1 = Except.ok () ∧
    (∃ r2, lookupRes (rc.Put name res cleaner).2.1.resources name = some r2 ∧
      r2.resource = some res ∧ r2.cleaner = some cleaner ∧
      r2.watchers = watchersOf rc name) ∧
    (rc.Put name res cleaner).2.2 =
      (watchersOf rc name).map (fun w => Event.notify w.cid) ∧
    (∀ w ∈ watchersOf rc name, w.cap = 1 ∧ countNotify w.cid tr = 0 ∧
      countNotify w.cid (rc.Put name res cleaner).2.2 = 1) := by
  rcases hfree with hl | ⟨r, hl, hw⟩
  · have hwo : watchersOf rc name = [] := by simp [watchersOf, hl]
    have hput : rc.Put name res cleaner = (Except.ok (), { rc with resources := insertRes rc.resources name { emptyResource with resource := some res, cleaner := some cleaner, name := name } }, []) := by
      simp [ResourceStore.Put, hl]
    refine ⟨by rw [hput], ?_, ?_, ?_⟩
    · refine ⟨{ emptyResource with resource := some res, cleaner := some cleaner, name := name }, ?_, rfl, rfl, ?_⟩
      · rw [hput]
        dsimp only
        exact lookupRes_insertRes_self rc.resources name _
      · rw [hwo]
        rfl
    · rw [hput, hwo]
      rfl
    · rw [hwo]
      intro w hwm
      simp at hwm
  · have hcond : ¬ (r.wasPut = true) := by simp [hw]
    have hput : rc.Put name res cleaner = (Except.ok (), { rc with resources := insertRes rc.resources name { r with resource := some res, cleaner := some cleaner, name := name } }, r.watchers.map (fun w => Event.notify w.cid)) := by
      simp only [ResourceStore.Put, hl]
      rw [if_neg hcond]
    have hwo : watchersOf rc name = r.watchers := by simp [watchersOf, hl]
    have hmem : (name, r) ∈ rc.resources := lookupRes_mem hl
    refine ⟨by rw [hput], ?_, ?_, ?_⟩
    · refine ⟨{ r with resource := some res, cleaner := some cleaner, name := name }, ?_, rfl, rfl, ?_⟩
      · rw [hput]
        dsimp only
        exact lookupRes_insertRes_self rc.resources name _
      · rw [hwo]
    · rw [hput, hwo]
    · intro w hwm
      rw [hwo] at hwm
      have h1 := hinv.send_bound w.cid
      have h2 := mem_placeholderCount w.cid hmem hw
      have h3 := countChanIn_mem hwm
      refine ⟨hinv.cap_one (name, r) hmem w hwm, by omega, ?_⟩
      rw [hput]
      dsimp only
      rw [countNotify_map_notify]
      omega

theorem chanInv_storePlaceholderB : ChanInv storePlaceholderB [] := by
  refine ⟨?_, ?_, ?_⟩
  · intro c
    simp only [countNotify, storePlaceholderB, entryPlaceholderB, placeholderCount,
      countChanIn, mkWatcherChan, Resource.wasPut]
    simp only [Option.isSome_none, Bool.false_eq_true, if_false]
    split
    · omega
    · omega
  · intro c hc
    have hc1 : 1 ≤ c := hc
    refine ⟨rfl, ?_⟩
    have hne : ¬ (0 = c) := by omega
    simp [storePlaceholderB, entryPlaceholderB, allCount, countChanIn,
      mkWatcherChan, hne]
  · intro p hp w hwm
    simp [storePlaceholderB, entryPlaceholderB] at hp
    rw [hp] at hwm
    simp [mkWatcherChan] at hwm
    rw [hwm]

theorem put_notifies_watchers_spec_witness :
    (storePlaceholderB.Put "b" resB clnB).1 = Except.ok () ∧
    (storePlaceholderB.Put "b" resB clnB).2.2 = [Event.notify 0] := by
  have h := put_notifies_watchers_spec storePlaceholderB [] "b" resB clnB
    chanInv_storePlaceholderB
    (Or.inr ⟨entryPlaceholderB, by decide, by decide⟩)
  refine ⟨h.1, ?_⟩
  rw [h.2.2.1]
  decide

/-- C6: Across every operation sequence from a fresh store — any mix of
`Put`, `Get`, `WatcherForResource`, `Close` and reaper cycles — each
watcher channel identity is sent to at most once in the whole trace. -/
theorem notify_at_most_once_spec (t : Nat) (ops : List Op) (c : Nat) :
    countNotify c (runOps (newWithTimeout t) ops).2 ≤ 1 := by
  have h := chanInv_runOps ops (newWithTimeout t) [] (chanInv_init t)
  have h2 := h.send_bound c
  simp only [List.nil_append] at h2
  omega

/-- C7: If `Get(name)` succeeds on an entry carrying cleaner `c` (and `c`
hangs on no other entry), the entry leaves the registry before `Get`
returns, and since the reaper only cleans entries it finds in the registry
no later operation sequence that does not re-`Put` `c` ever invokes
`c.Cleanup()`. -/
theorem get_cancels_cleanup_spec (rc : ResourceStore) (name : String)
    (r : Resource) (res : IdentifiableCreatable) (c : ResourceCleaner)
    (hnd : (rc.resources.map Prod.fst).Nodup)
    (hl : lookupRes rc.resources name = some r)
    (hres : r.resource = some res) (hcl : r.cleaner = some c)
    (hid : res.idStr ≠ "")
    (huniq : ∀ p ∈ rc.resources, p.2.cleaner = some c → p.1 = name)
    (ops : List Op) (hops : ∀ op ∈ ops, opPutsCleaner c op = false) :
    (rc.Get name).1 = res.idStr ∧ (rc.Get name).1 ≠ "" ∧
    countCleanup c (runOps (rc.Get name).2.1 ops).2 = 0 := by
  have hget : rc.Get name = (res.idStr, { rc with resources := eraseRes rc.resources name }, [Event.setCreated res]) := by
    simp [ResourceStore.Get, hl, hres]
  refine ⟨by rw [hget], by rw [hget]; exact hid, ?_⟩
  have habs : cleanerAbsent ({ rc with resources := eraseRes rc.resources name } : ResourceStore).resources c := by
    intro p hp
    dsimp only at hp
    obtain ⟨hm, hne⟩ := mem_eraseRes_ne hnd hp
    intro he
    exact hne (huniq p hm he)
  have hrun := (cleanerAbsent_runOps ops _ c habs hops).2
  rw [hget]
  exact hrun

theorem get_cancels_cleanup_spec_witness :
    (storeFullA.Get "a").1 = "id-a" ∧
    countCleanup clnA
      (runOps (storeFullA.Get "a").2.1
        [Op.reap, Op.reap, Op.put "a" resB clnB, Op.reap, Op.reap, Op.get "a"]).2 = 0 := by
  have h := get_cancels_cleanup_spec storeFullA "a" entryFullA resA clnA
    (by decide) (by decide) (by decide) (by decide) (by decide) (by decide)
    [Op.reap, Op.reap, Op.put "a" resB clnB, Op.reap, Op.reap, Op.get "a"]
    (by decide)
  exact ⟨h.1, h.2.2⟩

/-- C10: A watcher attached by `WatcherForResource(name)` after a
successful `Put(name, ...)`, while the populated entry is still in the
registry, is appended to the entry's watcher list but is never notified:
an immediate second `Put` on the name fails with the duplicate error
before reaching the notification loop (emitting nothing), and no operation
sequence whatsoever ever sends on that channel. -/
theorem late_watcher_never_notified_spec (rc : ResourceStore) (name : String)
    (r : Resource) (res : IdentifiableCreatable) (cleaner : ResourceCleaner)
    (hl : lookupRes rc.resources name = some r) (hw : r.wasPut = true)
    (hfresh : allCount rc.resources rc.nextChan = 0) (ops : List Op) :
    lookupRes (rc.WatcherForResource name).2.resources name =
      some { r with watchers := r.watchers ++ [(rc.WatcherForResource name).1] } ∧
    ((rc.WatcherForResource name).2.Put name res cleaner).1 =
      Except.error ("failed to add entry " ++ name ++
        " to ResourceStore; entry already exists") ∧
    ((rc.WatcherForResource name).2.Put name res cleaner).2.2 = [] ∧
    countNotify (rc.WatcherForResource name).1.cid
      (runOps (rc.WatcherForResource name).2 ops).2 = 0 := by
  have hwr : rc.WatcherForResource name = (mkWatcherChan rc.nextChan, { rc with resources := insertRes rc.resources name { r with watchers := r.watchers ++ [mkWatcherChan rc.nextChan] }, nextChan := rc.nextChan + 1 }) := by
    simp [ResourceStore.WatcherForResource, hl]
  have hext : ({ r with watchers := r.watchers ++ [mkWatcherChan rc.nextChan] } : Resource).wasPut = true := hw
  have hl2 : lookupRes ({ rc with resources := insertRes rc.resources name { r with watchers := r.watchers ++ [mkWatcherChan rc.nextChan] }, nextChan := rc.nextChan + 1 } : ResourceStore).resources name = some { r with watchers := r.watchers ++ [mkWatcherChan rc.nextChan] } := by
    dsimp only
    exact lookupRes_insertRes_self rc.resources name _
  have hput : (({ rc with resources := insertRes rc.resources name { r with watchers := r.watchers ++ [mkWatcherChan rc.nextChan] }, nextChan := rc.nextChan + 1 } : ResourceStore).Put name res cleaner) = (Except.error ("failed to add entry " ++ name ++ " to ResourceStore; entry already exists"), { rc with resources := insertRes rc.resources name { r with watchers := r.watchers ++ [mkWatcherChan rc.nextChan] }, nextChan := rc.nextChan + 1 }, []) := by
    simp only [ResourceStore.Put, hl2]
    rw [if_pos hext]
  have hun : unreachableChan ({ rc with resources := insertRes rc.resources name { r with watchers := r.watchers ++ [mkWatcherChan rc.nextChan] }, nextChan := rc.nextChan + 1 } : ResourceStore) rc.nextChan := by
    constructor
    · dsimp only
      omega
    · dsimp only
      have hpc := pc_insert_put_true
        ({ r with watchers := r.watchers ++ [mkWatcherChan rc.nextChan] })
        rc.nextChan hl hw hext
      have hle := placeholderCount_le_allCount rc.resources rc.nextChan
      omega
  refine ⟨?_, ?_, ?_, ?_⟩
  · rw [hwr]
    dsimp only
    exact lookupRes_insertRes_self rc.resources name _
  · rw [hwr]
    dsimp only
    rw [hput]
  · rw [hwr]
    dsimp only
    rw [hput]
  · rw [hwr]
    dsimp only
    exact (unreachableChan_runOps ops _ rc.nextChan hun).2

theorem late_watcher_never_notified_spec_witness :
    ((storeFullA.WatcherForResource "a").2.Put "a" resB clnB).2.2 = [] ∧
    countNotify (storeFullA.WatcherForResource "a").1.cid
      (runOps (storeFullA.WatcherForResource "a").2
        [Op.put "a" resB clnB, Op.watch "a", Op.reap, Op.reap, Op.get "a",
          Op.put "a" resB clnB, Op.close]).2 = 0 := by
  have h := late_watcher_never_notified_spec storeFullA "a" entryFullA resB clnB
    (by decide) (by decide) (by decide)
    [Op.put "a" resB clnB, Op.watch "a", Op.reap, Op.reap, Op.get "a",
      Op.put "a" resB clnB, Op.close]
  exact ⟨h.2.2.1, h.2.2.2⟩
